import Mathlib

/-!
Verification of the annealing image approximator (`src/main.rs`).

The Rust program is shallowly embedded: pixel buffers (`Vec<Vec<Rgb<u8>>>`)
become `List (List Pixel)`, machine integers become `ℕ`/`ℤ`, and `f64`
arithmetic is idealized as exact arithmetic over `ℚ` (for the rasterizer,
whose float values are rational) and `ℝ` (for the cost formulas, which take
square roots).  Rust's `as usize` / `as i64` float casts (truncation toward
zero, saturating at 0 for `usize`) are modelled explicitly.
-/

namespace AnnealImage

/-- An RGB pixel: `Rgb<u8>` from the `image` crate, channels as naturals. -/
abbrev Pixel := ℕ × ℕ × ℕ

/-- A pixel buffer `Vec<Vec<Rgb<u8>>>`, indexed `image[x][y]` (column-major). -/
abbrev Buffer := List (List Pixel)

/-- A canvas coordinate `(x, y)`. -/
abbrev Coord := ℕ × ℕ

/-- `pixel_difference` (main.rs:128): sum of absolute per-channel differences,
computed in `i32` (no overflow for bytes) and returned as an unsigned value. -/
def pixel_difference (p q : Pixel) : ℕ :=
  ((p.1 : ℤ) - q.1).natAbs + ((p.2.1 : ℤ) - q.2.1).natAbs + ((p.2.2 : ℤ) - q.2.2).natAbs

/-- Read `img[x][y]` (out-of-range reads return black; the program never
performs them on well-formed inputs). -/
def pixAt (img : Buffer) (x y : ℕ) : Pixel := (img.getD x []).getD y (0, 0, 0)

/-- Write `img[x][y] = c` (a no-op out of range, like `List.set`). -/
def setPix (img : Buffer) (x y : ℕ) (c : Pixel) : Buffer :=
  img.set x ((img.getD x []).set y c)

/-- The accept-commit loop of `anneal` (main.rs:269-271):
`for (x, y) in coords.iter() { image[x][y] = new_color; }`. -/
def paint (img : Buffer) (coords : List Coord) (c : Pixel) : Buffer :=
  coords.foldl (fun im cd => setPix im cd.1 cd.2 c) img

/-- The accumulated sum `s` of `get_cost` (main.rs:139-146): the nested
`for x in 0..w { for y in 0..h { s += pixel_difference(...) } }` loop. -/
def costSum (orig gen : Buffer) (w h : ℕ) : ℕ :=
  ∑ x in Finset.range w, ∑ y in Finset.range h,
    pixel_difference (pixAt orig x y) (pixAt gen x y)

/-- `get_cost` (main.rs:136): `sqrt(s*s / (w*h*3))` with `w`, `h` the
dimensions of the original image. -/
noncomputable def get_cost (original_image generated_image : Buffer) : ℝ :=
  let w := original_image.length
  let h := original_image.headI.length
  let s : ℝ := (costSum original_image generated_image w h : ℕ)
  Real.sqrt (s * s / (w * h * 3))

/-- Rust `as usize` applied to a nonnegative-or-small float, modelled on `ℚ`:
truncation toward zero, saturating at `0` for negative inputs. -/
def f64toUsize (q : ℚ) : ℕ := (Int.floor q).toNat

/-- Rust `as i64` applied to a float, modelled on `ℚ`: truncation toward zero. -/
def f64toI64 (q : ℚ) : ℤ := if q < 0 then -Int.floor (-q) else Int.floor q

/-- `update_cost` (main.rs:157): incremental cost update.  The float sums are
idealized as exact real sums; the linspace sample indices of the `Some`
branch use the explicit `as usize` truncation model. -/
noncomputable def update_cost (previous_cost : ℝ) (original_image annealed_image : Buffer)
    (coords : List Coord) (new_color : Pixel) (sample : Option ℕ) : ℝ :=
  -- if there is nothing to update, we just return the previous cost
  if coords.length = 0 then previous_cost
  else
    let w := original_image.length
    let h := original_image.headI.length
    -- restoring the sum from `get_cost`
    let s₀ : ℝ := Real.sqrt (previous_cost * previous_cost * (w * h * 3))
    match sample with
    | none =>
        let original_pixels := coords.map fun c => pixAt original_image c.1 c.2
        let annealed_pixels := coords.map fun c => pixAt annealed_image c.1 c.2
        let s₁ := s₀ - ((List.range original_pixels.length).map fun i =>
          (pixel_difference (original_pixels.getD i (0, 0, 0))
            (annealed_pixels.getD i (0, 0, 0)) : ℝ)).sum
        let s₂ := s₁ + (original_pixels.map fun p =>
          (pixel_difference p new_color : ℝ)).sum
        Real.sqrt (s₂ * s₂ / (w * h * 3))
    | some n =>
        let dx : ℚ := ((coords.length - 1 : ℕ) : ℚ) / ((n - 1 : ℕ) : ℚ)
        let sample_indices := (List.range n).map fun i => f64toUsize ((i : ℚ) * dx)
        let original_pixels_sample :=
          if n < coords.length then
            sample_indices.map fun i =>
              let c := coords.getD i (0, 0); pixAt original_image c.1 c.2
          else coords.map fun c => pixAt original_image c.1 c.2
        let annealed_sample :=
          if n < coords.length then
            sample_indices.map fun i =>
              let c := coords.getD i (0, 0); pixAt annealed_image c.1 c.2
          else coords.map fun c => pixAt annealed_image c.1 c.2
        let s₁ := s₀ - ((List.zip original_pixels_sample annealed_sample).map fun pq =>
          (pixel_difference pq.1 pq.2 : ℝ)).sum
        let s₂ := s₁ + (original_pixels_sample.map fun p =>
          (pixel_difference p new_color : ℝ)).sum
        Real.sqrt (s₂ * s₂ / (w * h * 3))

/-- `get_rectangle` (main.rs:87): nested loops
`for x in top_left.0..bottom_right.0 { for y in top_left.1..bottom_right.1 }`,
pushing `(x, y)`.  The random fill color is drawn separately. -/
def get_rectangle (top_left bottom_right : Coord) : List Coord :=
  (List.range' top_left.1 (bottom_right.1 - top_left.1)).flatMap fun x =>
    (List.range' top_left.2 (bottom_right.2 - top_left.2)).map fun y => (x, y)

/-- The first/third conditional swap of `sort_vertices` (main.rs:17-19,23-25):
swap `v1` and `v2` when `v1.1 > v2.1 || v1.1 == v2.1 && v1.0 > v2.0`. -/
def swap12 (v : (ℤ × ℤ) × (ℤ × ℤ) × (ℤ × ℤ)) : (ℤ × ℤ) × (ℤ × ℤ) × (ℤ × ℤ) :=
  if v.2.1.2 < v.1.2 ∨ (v.1.2 = v.2.1.2 ∧ v.2.1.1 < v.1.1) then (v.2.1, v.1, v.2.2) else v

/-- The middle conditional swap of `sort_vertices` (main.rs:20-22): swap `v2`
and `v3` under the same comparison. -/
def swap23 (v : (ℤ × ℤ) × (ℤ × ℤ) × (ℤ × ℤ)) : (ℤ × ℤ) × (ℤ × ℤ) × (ℤ × ℤ) :=
  if v.2.2.2 < v.2.1.2 ∨ (v.2.1.2 = v.2.2.2 ∧ v.2.2.1 < v.2.1.1) then (v.1, v.2.2, v.2.1) else v

/-- `sort_vertices` (main.rs:16-26): three conditional swaps sorting the
vertices by `(y, x)` ascending. -/
def sort_vertices (v : (ℤ × ℤ) × (ℤ × ℤ) × (ℤ × ℤ)) : (ℤ × ℤ) × (ℤ × ℤ) × (ℤ × ℤ) :=
  swap12 (swap23 (swap12 v))

/-- One scanline of the triangle fill: `(curx1 as usize..=curx2 as usize)`
mapped to coordinates at row `y`. -/
def spanRow (curx1 curx2 : ℚ) (y : ℤ) : List Coord :=
  (List.range' (f64toUsize curx1) (f64toUsize curx2 + 1 - f64toUsize curx1)).map
    fun x => (x, y.toNat)

/-- The `for y in v1.1..=v2.1` loop of `flat_bottom_triangle` (main.rs:34-38),
accumulating `curx1 += invslope1; curx2 += invslope2` and stepping `y` up. -/
def scanRowsUp (islope1 islope2 : ℚ) : ℕ → ℚ → ℚ → ℤ → List Coord
  | 0, _, _, _ => []
  | rows + 1, curx1, curx2, y =>
      spanRow curx1 curx2 y ++
        scanRowsUp islope1 islope2 rows (curx1 + islope1) (curx2 + islope2) (y + 1)

/-- The `for y in (v1.1 + 1..=v3.1).rev()` loop of `flat_top_triangle`
(main.rs:49-53), accumulating `curx1 -= invslope1; curx2 -= invslope2` and
stepping `y` down. -/
def scanRowsDown (islope1 islope2 : ℚ) : ℕ → ℚ → ℚ → ℤ → List Coord
  | 0, _, _, _ => []
  | rows + 1, curx1, curx2, y =>
      spanRow curx1 curx2 y ++
        scanRowsDown islope1 islope2 rows (curx1 - islope1) (curx2 - islope2) (y - 1)

/-- `flat_bottom_triangle` (main.rs:28-41).  The inclusive range
`v1.1..=v2.1` has `(v2.1 + 1 - v1.1).toNat` rows. -/
def flat_bottom_triangle (v1 v2 v3 : ℤ × ℤ) : List Coord :=
  let invslope1 : ℚ := ((v2.1 - v1.1 : ℤ) : ℚ) / ((v2.2 - v1.2 : ℤ) : ℚ)
  let invslope2 : ℚ := ((v3.1 - v1.1 : ℤ) : ℚ) / ((v3.2 - v1.2 : ℤ) : ℚ)
  scanRowsUp invslope1 invslope2 (v2.2 + 1 - v1.2).toNat (v1.1 : ℚ) (v1.1 : ℚ) v1.2

/-- `flat_top_triangle` (main.rs:43-56).  The reversed inclusive range
`(v1.1 + 1)..=v3.1` has `(v3.1 - v1.1).toNat` rows, starting at `y = v3.1`. -/
def flat_top_triangle (v1 v2 v3 : ℤ × ℤ) : List Coord :=
  let invslope1 : ℚ := ((v3.1 - v1.1 : ℤ) : ℚ) / ((v3.2 - v1.2 : ℤ) : ℚ)
  let invslope2 : ℚ := ((v3.1 - v2.1 : ℤ) : ℚ) / ((v3.2 - v2.2 : ℤ) : ℚ)
  scanRowsDown invslope1 invslope2 (v3.2 - v1.2).toNat (v3.1 : ℚ) (v3.1 : ℚ) v3.2

/-- The split point `x4` of the general case of `get_triangle` (main.rs:70-72):
`(vt1.0 + ((vt2.1 - vt1.1) / (vt3.1 - vt1.1)) * (vt3.0 - vt1.0)) as i64`. -/
def x4I (vt1 vt2 vt3 : ℤ × ℤ) : ℤ :=
  f64toI64 ((vt1.1 : ℚ) +
    ((vt2.2 - vt1.2 : ℤ) : ℚ) / ((vt3.2 - vt1.2 : ℤ) : ℚ) * ((vt3.1 - vt1.1 : ℤ) : ℚ))

/-- The re-sorted flat-bottom half `[vt1, vt2, vt4]` of the split case
(main.rs:74-75). -/
def splitFB (vt1 vt2 vt3 : ℤ × ℤ) : (ℤ × ℤ) × (ℤ × ℤ) × (ℤ × ℤ) :=
  sort_vertices (vt1, vt2, (x4I vt1 vt2 vt3, vt2.2))

/-- The re-sorted flat-top half `[vt2, vt4, vt3]` of the split case
(main.rs:76-77). -/
def splitFT (vt1 vt2 vt3 : ℤ × ℤ) : (ℤ × ℤ) × (ℤ × ℤ) × (ℤ × ℤ) :=
  sort_vertices (vt2, (x4I vt1 vt2 vt3, vt2.2), vt3)

/-- The branch dispatch of `get_triangle` (main.rs:63-83) on the sorted
vertices `(vt1, vt2, vt3)`: fill a flat-bottom or flat-top triangle directly,
or split at the middle vertex's scanline and fill both halves. -/
def triangleFromSorted (vs : (ℤ × ℤ) × (ℤ × ℤ) × (ℤ × ℤ)) : List Coord :=
  if vs.2.1.2 = vs.2.2.2 then flat_bottom_triangle vs.1 vs.2.1 vs.2.2
  else if vs.1.2 = vs.2.1.2 then flat_top_triangle vs.1 vs.2.1 vs.2.2
  else
    -- splitting triangle into top half and bottom half
    flat_bottom_triangle (splitFB vs.1 vs.2.1 vs.2.2).1 (splitFB vs.1 vs.2.1 vs.2.2).2.1
        (splitFB vs.1 vs.2.1 vs.2.2).2.2 ++
      flat_top_triangle (splitFT vs.1 vs.2.1 vs.2.2).1 (splitFT vs.1 vs.2.1 vs.2.2).2.1
        (splitFT vs.1 vs.2.1 vs.2.2).2.2

/-- `get_triangle` (main.rs:15-84): cast the vertices to `i64`, sort them and
rasterize.  The random fill color is drawn separately. -/
def get_triangle (w1 w2 w3 : Coord) : List Coord :=
  triangleFromSorted (sort_vertices (((w1.1 : ℤ), (w1.2 : ℤ)), ((w2.1 : ℤ), (w2.2 : ℤ)),
    ((w3.1 : ℤ), (w3.2 : ℤ))))

/-- The triangle validity test of `get_neighbor` (main.rs:114-119): `true`
when two vertices coincide, or all three share an `x`, or all three share
a `y` (the draw is rejected and resampled). -/
def degenerate_triple (v1 v2 v3 : Coord) : Bool :=
  v1 == v2 || v2 == v3 || v1 == v3 ||
    (v1.1 == v2.1 && v2.1 == v3.1) || (v1.2 == v2.2 && v2.2 == v3.2)

/-- The rectangle-mode draws of `get_neighbor` (main.rs:103-107):
`bottom_right = (1 + r1 % w, 1 + r2 % h)`, then
`top_left = (r3 % bottom_right.0, r4 % bottom_right.1)`, from four raw
`random::<usize>()` values.  Returns `(top_left, bottom_right)`. -/
def neighborRectCorners (w h r1 r2 r3 r4 : ℕ) : Coord × Coord :=
  let bottom_right := (1 + r1 % w, 1 + r2 % h)
  let top_left := (r3 % bottom_right.1, r4 % bottom_right.2)
  (top_left, bottom_right)

/-- Rectangle mode of `get_neighbor` (main.rs:102-108). -/
def getNeighborRect (w h r1 r2 r3 r4 : ℕ) : List Coord :=
  get_rectangle (neighborRectCorners w h r1 r2 r3 r4).1 (neighborRectCorners w h r1 r2 r3 r4).2

/-- One triangle-mode draw of `get_neighbor` (main.rs:110-112): three raw
random pairs reduced mod `w` and `h`.  `stream n` supplies the raw
`random::<usize>()` values consumed by the `n`-th (re)sampling attempt. -/
def tripleAt (w h : ℕ) (stream : ℕ → Coord × Coord × Coord) (n : ℕ) :
    Coord × Coord × Coord :=
  let r := stream n
  ((r.1.1 % w, r.1.2 % h), (r.2.1.1 % w, r.2.1.2 % h), (r.2.2.1 % w, r.2.2.2 % h))

/-- Triangle mode of `get_neighbor` (main.rs:109-124): draw a triple, recurse
on a degenerate draw, otherwise rasterize.  The recursion is modelled with
explicit fuel; `none` means the resampling recursion has not terminated
within `fuel` attempts. -/
def getNeighborTriangleAux (w h : ℕ) (stream : ℕ → Coord × Coord × Coord) :
    ℕ → ℕ → Option (List Coord)
  | _, 0 => none
  | idx, fuel + 1 =>
      let t := tripleAt w h stream idx
      -- ensuring we have a valid triangle
      if degenerate_triple t.1 t.2.1 t.2.2 then
        getNeighborTriangleAux w h stream (idx + 1) fuel
      else some (get_triangle t.1 t.2.1 t.2.2)

/-- Termination condition of the triangle-mode resampling recursion: some
attempt draws a non-degenerate triple. -/
def triangleDrawTerminates (w h : ℕ) (stream : ℕ → Coord × Coord × Coord) : Prop :=
  ∃ n : ℕ, degenerate_triple (tripleAt w h stream n).1 (tripleAt w h stream n).2.1
    (tripleAt w h stream n).2.2 = false

/-- State of the annealing loop (main.rs:257-275): the working image, the
running cost and the current temperature. -/
structure AnnealState where
  image : Buffer
  cost : ℝ
  temp : ℝ

open Classical

/-- One iteration of the `while` loop of `anneal` (main.rs:262-275): evaluate
the candidate incrementally, accept when `cost_diff < 0.0` or when the
uniform draw beats `exp(-cost_diff / current_temp)`, commit the color on
accept, and multiply the temperature by `alpha` either way. -/
noncomputable def annealStep (original_image : Buffer) (alpha : ℝ) (sample : Option ℕ)
    (cand : List Coord × Pixel) (draw : ℝ) (s : AnnealState) : AnnealState :=
  let neighbor_cost := update_cost s.cost original_image s.image cand.1 cand.2 sample
  let cost_diff := neighbor_cost - s.cost
  if cost_diff < 0 ∨ draw < Real.exp (-cost_diff / s.temp) then
    { image := paint s.image cand.1 cand.2, cost := neighbor_cost, temp := s.temp * alpha }
  else
    { image := s.image, cost := s.cost, temp := s.temp * alpha }

/-- The all-black working buffer `anneal` starts from (main.rs:259). -/
def blackBuffer (w h : ℕ) : Buffer := List.replicate w (List.replicate h (0, 0, 0))

/-- Initial annealing state (main.rs:255-260): `temperature = 1e3` and a full
`get_cost` of the original image against the all-black buffer. -/
noncomputable def annealInit (original_image : Buffer) : AnnealState :=
  { image := blackBuffer original_image.length original_image.headI.length,
    cost := get_cost original_image
      (blackBuffer original_image.length original_image.headI.length),
    temp := 1000 }

/-- The annealing loop after `n` iterations.  `oracle n` supplies the `n`-th
candidate (rasterized coordinates with its color) and the `n`-th uniform
`random::<f64>()` draw. -/
noncomputable def annealRun (original_image : Buffer) (alpha : ℝ) (sample : Option ℕ)
    (oracle : ℕ → (List Coord × Pixel) × ℝ) : ℕ → AnnealState
  | 0 => annealInit original_image
  | n + 1 => annealStep original_image alpha sample (oracle n).1 (oracle n).2
      (annealRun original_image alpha sample oracle n)

/-- Number of iterations of the `while current_temp >= final_temp` loop:
the least `n` with `1000 * alpha ^ n < 0.001` (the loop has no other exit). -/
noncomputable def annealIterations (alpha : ℝ) : ℕ :=
  if h : ∃ n : ℕ, 1000 * alpha ^ n < 1 / 1000 then Nat.find h else 0

/-- `anneal` (main.rs:249-283): run the loop until the temperature drops
below the floor and return the working buffer. -/
noncomputable def anneal (original_image : Buffer) (alpha : ℝ) (sample : Option ℕ)
    (oracle : ℕ → (List Coord × Pixel) × ℝ) : Buffer :=
  (annealRun original_image alpha sample oracle (annealIterations alpha)).image

/-- The running cost threaded through a sequence of accepted candidates:
each step evaluates `update_cost` against the current buffer (without
sampling) and then commits the candidate, exactly as the accept branch of
`anneal` does. -/
noncomputable def runCandidates (original_image : Buffer) :
    List (List Coord × Pixel) → Buffer → ℝ → Buffer × ℝ
  | [], img, c => (img, c)
  | cand :: rest, img, c =>
      runCandidates original_image rest (paint img cand.1 cand.2)
        (update_cost c original_image img cand.1 cand.2 none)

/-- Well-formed pair of equally-sized buffers: the dimensions `get_cost`
reads off `orig` are positive and every row of both buffers has that width. -/
def sizeOk (orig gen : Buffer) : Prop :=
  0 < orig.length ∧ 0 < orig.headI.length ∧ gen.length = orig.length ∧
    (∀ row ∈ orig, row.length = orig.headI.length) ∧
    (∀ row ∈ gen, row.length = orig.headI.length)

/-- A candidate coordinate list for a `w × h` canvas: duplicate-free (as the
lists produced by `get_rectangle` and `get_triangle` are) and in bounds. -/
def coordsOk (w h : ℕ) (coords : List Coord) : Prop :=
  coords.Nodup ∧ ∀ c ∈ coords, c.1 < w ∧ c.2 < h

instance (orig gen : Buffer) : Decidable (sizeOk orig gen) := by
  unfold sizeOk; exact inferInstance

instance (w h : ℕ) (coords : List Coord) : Decidable (coordsOk w h coords) := by
  unfold coordsOk; exact inferInstance

/-! ### Generic list lemmas -/

lemma getD_set {α : Type} (l : List α) (i j : ℕ) (a d : α) :
    (l.set i a).getD j d = if j = i ∧ i < l.length then a else l.getD j d := by
  induction l generalizing i j with
  | nil => simp
  | cons hd tl ih =>
      cases i with
      | zero =>
          cases j with
          | zero => simp
          | succ j => simp
      | succ i =>
          cases j with
          | zero => simp
          | succ j =>
              simp only [List.set_cons_succ, List.getD_cons_succ, List.length_cons]
              rw [ih]
              exact if_congr (by omega) rfl rfl

lemma length_flatMap_const {α β : Type} (l : List α) (f : α → List β) (k : ℕ)
    (hf : ∀ a ∈ l, (f a).length = k) : (l.flatMap f).length = l.length * k := by
  induction l with
  | nil => simp
  | cons a t ih =>
      simp only [List.flatMap_cons, List.length_append, List.length_cons,
        hf a (List.mem_cons_self a t), ih fun b hb => hf b (List.mem_cons_of_mem a hb)]
      ring

lemma range_map_getD_sum {α : Type} (l : List α) (f g : α → Pixel) (d : Pixel)
    (F : Pixel → Pixel → ℝ) :
    ((List.range (l.map f).length).map fun i =>
        F ((l.map f).getD i d) ((l.map g).getD i d)).sum =
      (l.map fun a => F (f a) (g a)).sum := by
  induction l with
  | nil => simp
  | cons a t ih =>
      simp only [List.map_cons, List.length_cons, List.range_succ_eq_map, List.map_map]
      simp only [List.sum_cons, List.getD_cons_zero, Function.comp_def, List.getD_cons_succ]
      rw [← ih]

/-! ### C10: an empty touched-coordinate list is a no-op -/

/-- C10: for every previous cost, every pair of buffers, every color and every
sample setting, `update_cost` with an empty coordinate list returns
`previous_cost` unchanged. -/
theorem C10_update_cost_empty (previous_cost : ℝ) (orig ann : Buffer) (color : Pixel)
    (sample : Option ℕ) : update_cost previous_cost orig ann [] color sample = previous_cost := by
  simp [update_cost]

/-! ### C7: rectangle rasterizer coverage -/

lemma mem_get_rectangle {tl br p : Coord} :
    p ∈ get_rectangle tl br ↔ tl.1 ≤ p.1 ∧ p.1 < br.1 ∧ tl.2 ≤ p.2 ∧ p.2 < br.2 := by
  obtain ⟨px, py⟩ := p
  simp only [get_rectangle, List.mem_flatMap, List.mem_map, List.mem_range'_1, Prod.mk.injEq]
  constructor
  · rintro ⟨x, ⟨hx1, hx2⟩, y, ⟨hy1, hy2⟩, hxy, hyx⟩
    subst hxy; subst hyx
    omega
  · rintro ⟨h1, h2, h3, h4⟩
    exact ⟨px, by omega, py, by omega, rfl, rfl⟩

lemma get_rectangle_nodup (tl br : Coord) : (get_rectangle tl br).Nodup := by
  rw [get_rectangle, List.nodup_flatMap]
  refine ⟨fun x _ => ?_, ?_⟩
  · exact (List.nodup_range' _ _).map fun a b h => (Prod.ext_iff.mp h).2
  · refine List.Pairwise.imp ?_ (List.nodup_range' _ _)
    intro a b hab
    intro p hp hq
    simp only [List.mem_map] at hp hq
    obtain ⟨y, _, rfl⟩ := hp
    obtain ⟨y', _, h⟩ := hq
    exact hab (Prod.ext_iff.mp h).1.symm

lemma get_rectangle_length (tl br : Coord) :
    (get_rectangle tl br).length = (br.1 - tl.1) * (br.2 - tl.2) := by
  have h := length_flatMap_const (List.range' tl.1 (br.1 - tl.1))
    (fun x => (List.range' tl.2 (br.2 - tl.2)).map fun y => (x, y)) (br.2 - tl.2)
    (fun a _ => by simp)
  rw [get_rectangle, h, List.length_range']

/-- C7: for every rectangle with `top_left ≤ bottom_right` componentwise and
`top_left ≠ bottom_right`, `get_rectangle` returns exactly
`(bottom_right.x − top_left.x) · (bottom_right.y − top_left.y)` coordinates,
pairwise distinct, each inside the half-open box, and a zero-width or
zero-height rectangle yields the empty list. -/
theorem C7_get_rectangle_coverage (tl br : Coord) (hx : tl.1 ≤ br.1) (hy : tl.2 ≤ br.2)
    (hne : tl ≠ br) :
    (get_rectangle tl br).length = (br.1 - tl.1) * (br.2 - tl.2) ∧
    (get_rectangle tl br).Nodup ∧
    (∀ p ∈ get_rectangle tl br, tl.1 ≤ p.1 ∧ p.1 < br.1 ∧ tl.2 ≤ p.2 ∧ p.2 < br.2) ∧
    (tl.1 = br.1 ∨ tl.2 = br.2 → get_rectangle tl br = []) := by
  refine ⟨get_rectangle_length tl br, get_rectangle_nodup tl br,
    fun p hp => mem_get_rectangle.mp hp, fun hdeg => ?_⟩
  rw [List.eq_nil_iff_forall_not_mem]
  intro p hp
  have := mem_get_rectangle.mp hp
  omega

/-- Witness for C7 at a concrete rectangle. -/
theorem C7_witness :
    ((1, 1) : Coord).1 ≤ ((3, 4) : Coord).1 ∧ ((1, 1) : Coord).2 ≤ ((3, 4) : Coord).2 ∧
      ((1, 1) : Coord) ≠ ((3, 4) : Coord) ∧
      ((get_rectangle (1, 1) (3, 4)).length = (3 - 1) * (4 - 1) ∧
        (get_rectangle (1, 1) (3, 4)).Nodup ∧
        (∀ p ∈ get_rectangle (1, 1) (3, 4), 1 ≤ p.1 ∧ p.1 < 3 ∧ 1 ≤ p.2 ∧ p.2 < 4) ∧
        (1 = 3 ∨ 1 = 4 → get_rectangle (1, 1) (3, 4) = [])) :=
  ⟨by decide, by decide, by decide,
    C7_get_rectangle_coverage (1, 1) (3, 4) (by decide) (by decide) (by decide)⟩

/-! ### C2: the full cost formula -/

lemma costSum_self (orig : Buffer) (w h : ℕ) : costSum orig orig w h = 0 := by
  rw [costSum]
  refine Finset.sum_eq_zero fun x _ => Finset.sum_eq_zero fun y _ => ?_
  simp [pixel_difference]

/-- C2: `get_cost` is `sqrt(S² / (W·H·3))` where `S` is the linear L1 sum of
per-pixel channel differences (squared once, not a sum of squared
differences); it is non-negative, and `get_cost A A = 0`. -/
theorem C2_get_cost_formula (orig gen : Buffer) (hsz : sizeOk orig gen) :
    get_cost orig gen = Real.sqrt
      (((∑ x in Finset.range orig.length, ∑ y in Finset.range orig.headI.length,
          ((((pixAt orig x y).1 : ℤ) - (pixAt gen x y).1).natAbs +
            (((pixAt orig x y).2.1 : ℤ) - (pixAt gen x y).2.1).natAbs +
            (((pixAt orig x y).2.2 : ℤ) - (pixAt gen x y).2.2).natAbs) : ℕ) : ℝ) ^ 2 /
        (orig.length * orig.headI.length * 3)) ∧
    0 ≤ get_cost orig gen ∧ get_cost orig orig = 0 := by
  refine ⟨?_, Real.sqrt_nonneg _, ?_⟩
  · rw [get_cost, costSum]
    rw [sq]
    rfl
  · rw [get_cost, costSum_self]
    simp

/-- Witness for C2 at concrete equally-sized non-empty buffers. -/
theorem C2_witness :
    sizeOk [[((1, 2, 3) : Pixel)]] [[((4, 5, 6) : Pixel)]] ∧
      (get_cost [[((1, 2, 3) : Pixel)]] [[((4, 5, 6) : Pixel)]] = Real.sqrt
        (((∑ x in Finset.range (1 : ℕ), ∑ y in Finset.range (1 : ℕ),
            ((((pixAt [[((1, 2, 3) : Pixel)]] x y).1 : ℤ) -
                (pixAt [[((4, 5, 6) : Pixel)]] x y).1).natAbs +
              (((pixAt [[((1, 2, 3) : Pixel)]] x y).2.1 : ℤ) -
                (pixAt [[((4, 5, 6) : Pixel)]] x y).2.1).natAbs +
              (((pixAt [[((1, 2, 3) : Pixel)]] x y).2.2 : ℤ) -
                (pixAt [[((4, 5, 6) : Pixel)]] x y).2.2).natAbs) : ℕ) : ℝ) ^ 2 /
          ((1 : ℕ) * (1 : ℕ) * 3)) ∧
        0 ≤ get_cost [[((1, 2, 3) : Pixel)]] [[((4, 5, 6) : Pixel)]] ∧
        get_cost [[((1, 2, 3) : Pixel)]] [[((1, 2, 3) : Pixel)]] = 0) :=
  ⟨by decide, C2_get_cost_formula [[(1, 2, 3)]] [[(4, 5, 6)]] (by decide)⟩

/-! ### Buffer update lemmas -/

lemma getD_mem_of_lt {α : Type} (l : List α) (n : ℕ) (d : α) (h : n < l.length) :
    l.getD n d ∈ l := by
  rw [List.getD_eq_getElem _ _ h]
  exact List.getElem_mem h

lemma pixAt_setPix_self {img : Buffer} {x y : ℕ} (c : Pixel) (hx : x < img.length)
    (hy : y < (img.getD x []).length) : pixAt (setPix img x y c) x y = c := by
  unfold pixAt setPix
  rw [getD_set, if_pos ⟨rfl, hx⟩, getD_set, if_pos ⟨rfl, hy⟩]

lemma pixAt_setPix_ne {img : Buffer} {x y x' y' : ℕ} (c : Pixel)
    (hne : (x', y') ≠ (x, y)) : pixAt (setPix img x y c) x' y' = pixAt img x' y' := by
  unfold pixAt setPix
  rcases eq_or_ne x' x with rfl | hx
  · have hy : y' ≠ y := fun h => hne (by rw [h])
    rw [getD_set]
    split_ifs with h
    · rw [getD_set, if_neg fun hc => hy hc.1]
    · rfl
  · rw [getD_set, if_neg fun hc => hx hc.1]

lemma setPix_length (img : Buffer) (x y : ℕ) (c : Pixel) :
    (setPix img x y c).length = img.length := by
  simp [setPix]

lemma paint_length (img : Buffer) (coords : List Coord) (c : Pixel) :
    (paint img coords c).length = img.length := by
  induction coords generalizing img with
  | nil => rfl
  | cons cd rest ih => rw [paint, List.foldl_cons, ← paint, ih, setPix_length]

lemma sizeOk_setPix {orig gen : Buffer} (hsz : sizeOk orig gen) {x : ℕ} (y : ℕ) (c : Pixel)
    (hx : x < orig.length) : sizeOk orig (setPix gen x y c) := by
  obtain ⟨hw, hh, hlen, horig, hgen⟩ := hsz
  refine ⟨hw, hh, by rw [setPix_length, hlen], horig, ?_⟩
  intro row hrow
  rcases List.mem_or_eq_of_mem_set hrow with h | rfl
  · exact hgen row h
  · rw [List.length_set]
    exact hgen _ (getD_mem_of_lt _ _ _ (by omega))

lemma sizeOk_paint {orig gen : Buffer} (hsz : sizeOk orig gen) {coords : List Coord} (c : Pixel)
    (hb : ∀ cd ∈ coords, cd.1 < orig.length ∧ cd.2 < orig.headI.length) :
    sizeOk orig (paint gen coords c) := by
  induction coords generalizing gen with
  | nil => exact hsz
  | cons cd rest ih =>
      rw [paint, List.foldl_cons, ← paint]
      exact ih (sizeOk_setPix hsz cd.2 c (hb cd (List.mem_cons_self cd rest)).1)
        fun q hq => hb q (List.mem_cons_of_mem cd hq)

/-! ### Cost bookkeeping -/

lemma sum_update_point {α : Type} [DecidableEq α] {s : Finset α} (f g : α → ℝ) {a : α}
    (ha : a ∈ s) (hfg : ∀ b ∈ s, b ≠ a → f b = g b) :
    ∑ b in s, f b = (∑ b in s, g b) - g a + f a := by
  rw [← Finset.add_sum_erase s f ha, ← Finset.add_sum_erase s g ha]
  have heq : ∑ b in s.erase a, f b = ∑ b in s.erase a, g b :=
    Finset.sum_congr rfl fun b hb =>
      hfg b (Finset.mem_of_mem_erase hb) (Finset.ne_of_mem_erase hb)
  rw [heq]
  ring

lemma costSum_cast_product (orig gen : Buffer) (w h : ℕ) :
    (costSum orig gen w h : ℝ) = ∑ p in Finset.range w ×ˢ Finset.range h,
      (pixel_difference (pixAt orig p.1 p.2) (pixAt gen p.1 p.2) : ℝ) := by
  rw [costSum, Finset.sum_product]
  push_cast
  rfl

lemma costSum_setPix {orig gen : Buffer} (hsz : sizeOk orig gen) {x y : ℕ} (c : Pixel)
    (hx : x < orig.length) (hy : y < orig.headI.length) :
    (costSum orig (setPix gen x y c) orig.length orig.headI.length : ℝ) =
      (costSum orig gen orig.length orig.headI.length : ℝ) -
        (pixel_difference (pixAt orig x y) (pixAt gen x y) : ℝ) +
        (pixel_difference (pixAt orig x y) c : ℝ) := by
  rw [costSum_cast_product, costSum_cast_product]
  have ha : ((x, y) : ℕ × ℕ) ∈ Finset.range orig.length ×ˢ Finset.range orig.headI.length := by
    simp [Finset.mem_product, hx, hy]
  have hxg : x < gen.length := by rw [hsz.2.2.1]; exact hx
  have hrow : y < (gen.getD x []).length := by
    rw [hsz.2.2.2.2 _ (getD_mem_of_lt _ _ _ hxg)]
    exact hy
  have := sum_update_point
    (f := fun p => (pixel_difference (pixAt orig p.1 p.2) (pixAt (setPix gen x y c) p.1 p.2) : ℝ))
    (g := fun p => (pixel_difference (pixAt orig p.1 p.2) (pixAt gen p.1 p.2) : ℝ))
    ha ?_
  · rw [this]
    simp only [pixAt_setPix_self c hxg hrow]
  · intro b _ hb
    beta_reduce
    rw [pixAt_setPix_ne c (by simpa [Prod.ext_iff] using hb)]

lemma costSum_paint {orig : Buffer} {coords : List Coord} (color : Pixel) :
    ∀ {gen : Buffer}, sizeOk orig gen →
    coordsOk orig.length orig.headI.length coords →
    (costSum orig (paint gen coords color) orig.length orig.headI.length : ℝ) =
      (costSum orig gen orig.length orig.headI.length : ℝ) -
        (coords.map fun cd => (pixel_difference (pixAt orig cd.1 cd.2) (pixAt gen cd.1 cd.2) : ℝ)).sum +
        (coords.map fun cd => (pixel_difference (pixAt orig cd.1 cd.2) color : ℝ)).sum := by
  induction coords with
  | nil => intro gen _ _; simp [paint]
  | cons cd rest ih =>
      intro gen hsz hco
      obtain ⟨hnd, hb⟩ := hco
      have hcd := hb cd (List.mem_cons_self cd rest)
      have hsz' : sizeOk orig (setPix gen cd.1 cd.2 color) := sizeOk_setPix hsz cd.2 color hcd.1
      rw [paint, List.foldl_cons, ← paint]
      rw [ih hsz' ⟨(List.nodup_cons.mp hnd).2, fun q hq => hb q (List.mem_cons_of_mem cd hq)⟩]
      rw [costSum_setPix hsz color hcd.1 hcd.2]
      have hnotin := (List.nodup_cons.mp hnd).1
      have hrest : (rest.map fun q =>
          (pixel_difference (pixAt orig q.1 q.2) (pixAt (setPix gen cd.1 cd.2 color) q.1 q.2) : ℝ)) =
          rest.map fun q => (pixel_difference (pixAt orig q.1 q.2) (pixAt gen q.1 q.2) : ℝ) := by
        refine List.map_congr_left fun q hq => ?_
        rw [pixAt_setPix_ne color ?_]
        intro hcontra
        exact hnotin (by rwa [show q = cd from by
          obtain ⟨q1, q2⟩ := q; obtain ⟨c1, c2⟩ := cd; simpa [Prod.ext_iff] using hcontra] at hq)
      rw [hrest]
      simp only [List.map_cons, List.sum_cons]
      ring

/-! ### Square-root bookkeeping for the cost formulas -/

lemma sqrt_mul_self_div {t K : ℝ} (ht : 0 ≤ t) (hK : 0 < K) :
    Real.sqrt (t * t / K) = t / Real.sqrt K := by
  have hs : Real.sqrt K * Real.sqrt K = K := Real.mul_self_sqrt hK.le
  rw [show t * t / K = (t / Real.sqrt K) * (t / Real.sqrt K) by
    rw [div_mul_div_comm, hs]]
  exact Real.sqrt_mul_self (div_nonneg ht (Real.sqrt_nonneg K))

lemma get_cost_eq_div (orig gen : Buffer) (hK : 0 < ((orig.length * orig.headI.length * 3 : ℕ) : ℝ)) :
    get_cost orig gen = (costSum orig gen orig.length orig.headI.length : ℝ) /
      Real.sqrt ((orig.length * orig.headI.length * 3 : ℕ) : ℝ) := by
  rw [get_cost]
  push_cast at hK ⊢
  exact sqrt_mul_self_div (Nat.cast_nonneg _) hK

lemma get_cost_nonneg (orig gen : Buffer) : 0 ≤ get_cost orig gen := by
  unfold get_cost
  exact Real.sqrt_nonneg _

lemma update_cost_correct (orig gen : Buffer) (coords : List Coord) (color : Pixel)
    (hsz : sizeOk orig gen) (hco : coordsOk orig.length orig.headI.length coords) :
    update_cost (get_cost orig gen) orig gen coords color none =
      get_cost orig (paint gen coords color) := by
  rcases eq_or_ne coords [] with rfl | hne
  · simp [update_cost, paint]
  · have hlen : ¬(coords.length = 0) := fun h => hne (List.length_eq_zero.mp h)
    have hw : 0 < orig.length := hsz.1
    have hh : 0 < orig.headI.length := hsz.2.1
    have hK : (0 : ℝ) < (orig.length : ℝ) * (orig.headI.length : ℝ) * 3 :=
      mul_pos (mul_pos (by exact_mod_cast hw) (by exact_mod_cast hh)) (by norm_num)
    have hKne : Real.sqrt ((orig.length : ℝ) * (orig.headI.length : ℝ) * 3) ≠ 0 :=
      ne_of_gt (Real.sqrt_pos.mpr hK)
    have hdiv : get_cost orig gen =
        (costSum orig gen orig.length orig.headI.length : ℝ) /
          Real.sqrt ((orig.length : ℝ) * (orig.headI.length : ℝ) * 3) := by
      unfold get_cost
      exact sqrt_mul_self_div (Nat.cast_nonneg _) hK
    have hs0 : Real.sqrt (get_cost orig gen * get_cost orig gen *
        ((orig.length : ℝ) * (orig.headI.length : ℝ) * 3)) =
        (costSum orig gen orig.length orig.headI.length : ℝ) := by
      rw [hdiv, div_mul_div_comm, Real.mul_self_sqrt hK.le, div_mul_cancel₀ _ hK.ne']
      exact Real.sqrt_mul_self (by positivity)
    have hdiv' : get_cost orig (paint gen coords color) =
        (costSum orig (paint gen coords color) orig.length orig.headI.length : ℝ) /
          Real.sqrt ((orig.length : ℝ) * (orig.headI.length : ℝ) * 3) := by
      unfold get_cost
      exact sqrt_mul_self_div (Nat.cast_nonneg _) hK
    have hsub := range_map_getD_sum coords (fun c => pixAt orig c.1 c.2)
      (fun c => pixAt gen c.1 c.2) (0, 0, 0) fun p q => (pixel_difference p q : ℝ)
    have hS' := costSum_paint color hsz hco
    unfold update_cost
    rw [if_neg hlen]
    simp only [List.map_map, Function.comp_def]
    rw [hs0, hsub, hdiv', hS']
    exact sqrt_mul_self_div (by rw [← hS']; positivity) hK

lemma runCandidates_correct (orig : Buffer) (cands : List (List Coord × Pixel)) :
    ∀ gen : Buffer, sizeOk orig gen →
      (∀ cd ∈ cands, coordsOk orig.length orig.headI.length cd.1) →
      runCandidates orig cands gen (get_cost orig gen) =
        (cands.foldl (fun im cd => paint im cd.1 cd.2) gen,
          get_cost orig (cands.foldl (fun im cd => paint im cd.1 cd.2) gen)) := by
  induction cands with
  | nil => intro gen _ _; rfl
  | cons cd rest ih =>
      intro gen hsz hall
      have hcd := hall cd (List.mem_cons_self cd rest)
      rw [runCandidates, update_cost_correct orig gen cd.1 cd.2 hsz hcd, List.foldl_cons]
      exact ih (paint gen cd.1 cd.2) (sizeOk_paint hsz cd.2 hcd.2)
        fun q hq => hall q (List.mem_cons_of_mem cd hq)

/-- C1: with `previous_cost = get_cost orig gen` and a duplicate-free in-bounds
candidate coordinate list, the unsampled `update_cost` equals `get_cost` on
the buffer with the new color written at every touched coordinate (exactly,
in the idealized real-arithmetic model of `f64`); consequently the running
cost threaded through any sequence of accepted candidates equals a
from-scratch `get_cost` of the final buffer. -/
theorem C1_incremental_full_equivalence (orig gen : Buffer) (hsz : sizeOk orig gen) :
    (∀ (coords : List Coord) (color : Pixel),
        coordsOk orig.length orig.headI.length coords →
        update_cost (get_cost orig gen) orig gen coords color none =
          get_cost orig (paint gen coords color)) ∧
    (∀ cands : List (List Coord × Pixel),
        (∀ cd ∈ cands, coordsOk orig.length orig.headI.length cd.1) →
        runCandidates orig cands gen (get_cost orig gen) =
          (cands.foldl (fun im cd => paint im cd.1 cd.2) gen,
            get_cost orig (cands.foldl (fun im cd => paint im cd.1 cd.2) gen))) :=
  ⟨fun coords color hco => update_cost_correct orig gen coords color hsz hco,
    fun cands hall => runCandidates_correct orig cands gen hsz hall⟩

/-- Witness for C1 on a concrete 2×2 reference, all-black working buffer and
a two-pixel candidate. -/
theorem C1_witness :
    sizeOk [[((9, 0, 0) : Pixel), (0, 0, 0)], [(1, 2, 3), (4, 5, 6)]]
        [[((0, 0, 0) : Pixel), (0, 0, 0)], [(0, 0, 0), (0, 0, 0)]] ∧
      coordsOk (List.length [[((9, 0, 0) : Pixel), (0, 0, 0)], [(1, 2, 3), (4, 5, 6)]])
        (List.headI [[((9, 0, 0) : Pixel), (0, 0, 0)], [(1, 2, 3), (4, 5, 6)]]).length
        [(0, 1), (1, 0)] ∧
      update_cost
          (get_cost [[((9, 0, 0) : Pixel), (0, 0, 0)], [(1, 2, 3), (4, 5, 6)]]
            [[((0, 0, 0) : Pixel), (0, 0, 0)], [(0, 0, 0), (0, 0, 0)]])
          [[((9, 0, 0) : Pixel), (0, 0, 0)], [(1, 2, 3), (4, 5, 6)]]
          [[((0, 0, 0) : Pixel), (0, 0, 0)], [(0, 0, 0), (0, 0, 0)]]
          [(0, 1), (1, 0)] (7, 7, 7) none =
        get_cost [[((9, 0, 0) : Pixel), (0, 0, 0)], [(1, 2, 3), (4, 5, 6)]]
          (paint [[((0, 0, 0) : Pixel), (0, 0, 0)], [(0, 0, 0), (0, 0, 0)]]
            [(0, 1), (1, 0)] (7, 7, 7)) :=
  ⟨by decide, by decide,
    (C1_incremental_full_equivalence
        [[((9, 0, 0) : Pixel), (0, 0, 0)], [(1, 2, 3), (4, 5, 6)]]
        [[((0, 0, 0) : Pixel), (0, 0, 0)], [(0, 0, 0), (0, 0, 0)]] (by decide)).1
      [(0, 1), (1, 0)] (7, 7, 7) (by decide)⟩

/-! ### C5: the 2×2 all-black scenario -/

lemma costSum_scenario_painted :
    costSum (blackBuffer 2 2) (paint (blackBuffer 2 2) [(0, 0)] (255, 255, 255)) 2 2 = 765 := by
  decide

lemma get_cost_scenario_painted :
    get_cost (blackBuffer 2 2) (paint (blackBuffer 2 2) [(0, 0)] (255, 255, 255)) =
      Real.sqrt ((765 : ℝ) * 765 / 12) := by
  unfold get_cost
  simp only [show (blackBuffer 2 2).length = 2 from rfl,
    show (List.headI (blackBuffer 2 2)).length = 2 from rfl, costSum_scenario_painted]
  norm_num

lemma get_cost_scenario_zero : get_cost (blackBuffer 2 2) (blackBuffer 2 2) = 0 := by
  unfold get_cost
  simp [costSum_self]

/-- C5: on a 2×2 all-black reference against an all-black buffer the cost is
`0`; painting one pixel white makes the full cost
`sqrt((255+255+255)² / (4·3))`, the incremental update from cost `0` agrees
with the full recomputation, and the value lies in `(220.83, 220.84)`
(approximately `220.84`, not the spec's `221.47`). -/
theorem C5_scenario :
    get_cost (blackBuffer 2 2) (blackBuffer 2 2) = 0 ∧
    get_cost (blackBuffer 2 2) (paint (blackBuffer 2 2) [(0, 0)] (255, 255, 255)) =
      Real.sqrt ((255 + 255 + 255 : ℝ) * (255 + 255 + 255) / (4 * 3)) ∧
    update_cost 0 (blackBuffer 2 2) (blackBuffer 2 2) [(0, 0)] (255, 255, 255) none =
      get_cost (blackBuffer 2 2) (paint (blackBuffer 2 2) [(0, 0)] (255, 255, 255)) ∧
    220.83 < get_cost (blackBuffer 2 2) (paint (blackBuffer 2 2) [(0, 0)] (255, 255, 255)) ∧
    get_cost (blackBuffer 2 2) (paint (blackBuffer 2 2) [(0, 0)] (255, 255, 255)) < 220.84 := by
  refine ⟨get_cost_scenario_zero, ?_, ?_, ?_, ?_⟩
  · rw [get_cost_scenario_painted]
    norm_num
  · rw [← get_cost_scenario_zero]
    exact update_cost_correct (blackBuffer 2 2) (blackBuffer 2 2) [(0, 0)] (255, 255, 255)
      (by decide) (by decide)
  · rw [get_cost_scenario_painted]
    exact (Real.lt_sqrt (by norm_num)).mpr (by norm_num)
  · rw [get_cost_scenario_painted]
    exact (Real.sqrt_lt' (by norm_num)).mpr (by norm_num)

/-- C5 counterexample to the claimed numeric value: the painted-pixel cost is
below `221`, so it is not approximately `221.47` (it is ≈ `220.84`); the
spec's stated approximation is an arithmetic slip. -/
theorem C5_counterexample_not_221 :
    get_cost (blackBuffer 2 2) (paint (blackBuffer 2 2) [(0, 0)] (255, 255, 255)) < 221 := by
  rw [get_cost_scenario_painted]
  exact (Real.sqrt_lt' (by norm_num)).mpr (by norm_num)

/-! ### C3: the Metropolis acceptance step -/

/-- C3: in every iteration of the annealing loop, with
`cost_diff = neighbor_cost - cost`, the candidate is accepted iff
`cost_diff < 0` or the uniform draw is below `exp(-cost_diff / temperature)`;
on accept the color is committed to every touched coordinate and the cost
becomes `neighbor_cost`, on reject image and cost are unchanged (the
temperature advances either way). -/
theorem C3_metropolis_iteration (orig : Buffer) (alpha : ℝ) (sample : Option ℕ)
    (cand : List Coord × Pixel) (u : ℝ) (s : AnnealState) (hu0 : 0 ≤ u) (hu1 : u < 1) :
    (update_cost s.cost orig s.image cand.1 cand.2 sample - s.cost < 0 ∨
        u < Real.exp (-(update_cost s.cost orig s.image cand.1 cand.2 sample - s.cost) /
          s.temp) →
      annealStep orig alpha sample cand u s =
        { image := paint s.image cand.1 cand.2,
          cost := update_cost s.cost orig s.image cand.1 cand.2 sample,
          temp := s.temp * alpha }) ∧
    (¬(update_cost s.cost orig s.image cand.1 cand.2 sample - s.cost < 0 ∨
        u < Real.exp (-(update_cost s.cost orig s.image cand.1 cand.2 sample - s.cost) /
          s.temp)) →
      annealStep orig alpha sample cand u s =
        { image := s.image, cost := s.cost, temp := s.temp * alpha }) := by
  constructor <;> intro h <;> unfold annealStep
  · rw [if_pos h]
  · rw [if_neg h]

/-- Witness for C3 at a concrete state and a concrete uniform draw. -/
theorem C3_witness :
    (0 : ℝ) ≤ 0 ∧ (0 : ℝ) < 1 ∧
      ((update_cost 0 [] [] [] (0, 0, 0) none - 0 < 0 ∨
          (0 : ℝ) < Real.exp (-(update_cost 0 [] [] [] (0, 0, 0) none - 0) / 1) →
        annealStep [] (1 / 2) none ([], (0, 0, 0)) 0 ⟨[], 0, 1⟩ =
          { image := paint [] [] (0, 0, 0), cost := update_cost 0 [] [] [] (0, 0, 0) none,
            temp := 1 * (1 / 2) }) ∧
        (¬(update_cost 0 [] [] [] (0, 0, 0) none - 0 < 0 ∨
            (0 : ℝ) < Real.exp (-(update_cost 0 [] [] [] (0, 0, 0) none - 0) / 1)) →
          annealStep [] (1 / 2) none ([], (0, 0, 0)) 0 ⟨[], 0, 1⟩ =
            { image := [], cost := 0, temp := 1 * (1 / 2) })) :=
  ⟨le_refl 0, by norm_num,
    C3_metropolis_iteration [] (1 / 2) none ([], (0, 0, 0)) 0 ⟨[], 0, 1⟩ (le_refl 0)
      (by norm_num)⟩

/-! ### C4: the cooling schedule and the iteration count -/

lemma annealStep_temp (orig : Buffer) (alpha : ℝ) (sample : Option ℕ)
    (cand : List Coord × Pixel) (draw : ℝ) (s : AnnealState) :
    (annealStep orig alpha sample cand draw s).temp = s.temp * alpha := by
  rcases Classical.em (update_cost s.cost orig s.image cand.1 cand.2 sample - s.cost < 0 ∨
      draw < Real.exp (-(update_cost s.cost orig s.image cand.1 cand.2 sample - s.cost) /
        s.temp)) with h | h
  · unfold annealStep
    rw [if_pos h]
  · unfold annealStep
    rw [if_neg h]

lemma annealRun_temp (orig : Buffer) (alpha : ℝ) (sample : Option ℕ)
    (oracle : ℕ → (List Coord × Pixel) × ℝ) (n : ℕ) :
    (annealRun orig alpha sample oracle n).temp = 1000 * alpha ^ n := by
  induction n with
  | zero => simp [annealRun, annealInit]
  | succ n ih => rw [annealRun, annealStep_temp, ih, pow_succ]; ring

set_option exponentiation.threshold 20000 in
set_option maxRecDepth 10000 in
lemma pow_fact_A : 1000 * 999 ^ 13809 * 1000 < 1000 ^ 13809 := by decide

set_option exponentiation.threshold 20000 in
set_option maxRecDepth 10000 in
lemma pow_fact_B : 1000 ^ 13808 ≤ 1000 * 999 ^ 13808 * 1000 := by decide

lemma temp_below_floor : 1000 * (999 / 1000 : ℝ) ^ 13809 < 1 / 1000 := by
  have h : (1000 * 999 ^ 13809 * 1000 : ℝ) < 1000 ^ 13809 := by exact_mod_cast pow_fact_A
  rw [div_pow, mul_div_assoc', div_lt_div_iff₀ (by positivity) (by norm_num)]
  linarith [h]

lemma temp_above_floor : (1 / 1000 : ℝ) ≤ 1000 * (999 / 1000 : ℝ) ^ 13808 := by
  have h : (1000 ^ 13808 : ℝ) ≤ 1000 * 999 ^ 13808 * 1000 := by exact_mod_cast pow_fact_B
  rw [div_pow, mul_div_assoc', div_le_div_iff₀ (by norm_num) (by positivity)]
  linarith [h]

lemma temp_above_floor_of_lt {m : ℕ} (hm : m < 13809) :
    (1 / 1000 : ℝ) ≤ 1000 * (999 / 1000 : ℝ) ^ m := by
  have h1 : (999 / 1000 : ℝ) ^ 13808 ≤ (999 / 1000 : ℝ) ^ m :=
    pow_le_pow_of_le_one (by norm_num) (by norm_num) (by omega)
  nlinarith [temp_above_floor, h1]

/-- C4: the temperature starts at `1000.0`, is multiplied by `alpha` after
every iteration regardless of accept/reject (so monotonically non-increasing
for `alpha ∈ (0,1)`), the loop has no exit other than the temperature
dropping below `0.001`, and for `alpha = 0.999` it performs exactly `13809`
iterations (`⌈ln(0.001/1000)/ln(0.999)⌉`, about `13,800`): the temperature
is still at or above the floor after every `m < 13809` iterations and below
it after `13809`. -/
theorem C4_termination_schedule :
    (∀ (orig : Buffer) (alpha : ℝ) (sample : Option ℕ)
        (oracle : ℕ → (List Coord × Pixel) × ℝ),
        (annealRun orig alpha sample oracle 0).temp = 1000) ∧
    (∀ (orig : Buffer) (alpha : ℝ) (sample : Option ℕ)
        (oracle : ℕ → (List Coord × Pixel) × ℝ) (n : ℕ),
        (annealRun orig alpha sample oracle (n + 1)).temp =
          (annealRun orig alpha sample oracle n).temp * alpha) ∧
    (∀ (orig : Buffer) (alpha : ℝ) (sample : Option ℕ)
        (oracle : ℕ → (List Coord × Pixel) × ℝ) (n : ℕ), 0 < alpha → alpha < 1 →
        (annealRun orig alpha sample oracle (n + 1)).temp ≤
          (annealRun orig alpha sample oracle n).temp) ∧
    (∀ (orig : Buffer) (alpha : ℝ) (sample : Option ℕ)
        (oracle : ℕ → (List Coord × Pixel) × ℝ) (n : ℕ),
        (annealRun orig alpha sample oracle n).temp = 1000 * alpha ^ n) ∧
    annealIterations (999 / 1000) = 13809 ∧
    (∀ m : ℕ, m < 13809 → 1 / 1000 ≤ 1000 * (999 / 1000 : ℝ) ^ m) ∧
    1000 * (999 / 1000 : ℝ) ^ 13809 < 1 / 1000 := by
  refine ⟨fun orig alpha sample oracle => rfl,
    fun orig alpha sample oracle n => annealStep_temp _ _ _ _ _ _,
    fun orig alpha sample oracle n h0 h1 => ?_,
    fun orig alpha sample oracle n => annealRun_temp _ _ _ _ _,
    ?_, fun m hm => temp_above_floor_of_lt hm, temp_below_floor⟩
  · rw [annealRun_temp, annealRun_temp, pow_succ]
    nlinarith [pow_nonneg h0.le n]
  · unfold annealIterations
    rw [dif_pos ⟨13809, temp_below_floor⟩, Nat.find_eq_iff]
    exact ⟨temp_below_floor, fun m hm => not_lt.mpr (temp_above_floor_of_lt hm)⟩

/-- Witness for C4: the hypothesis-bearing conjuncts applied at concrete
inputs. -/
theorem C4_witness :
    (annealRun [] (1 / 2) none (fun _ => (([], (0, 0, 0)), 0)) 1).temp ≤
        (annealRun [] (1 / 2) none (fun _ => (([], (0, 0, 0)), 0)) 0).temp ∧
      (1 / 1000 : ℝ) ≤ 1000 * (999 / 1000 : ℝ) ^ 0 :=
  ⟨C4_termination_schedule.2.2.1 [] (1 / 2) none (fun _ => (([], (0, 0, 0)), 0)) 0
      (by norm_num) (by norm_num),
    C4_termination_schedule.2.2.2.2.2.1 0 (by norm_num)⟩

/-! ### C8: the rectangle-mode draws -/

/-- C8 counterexample: `bottom_right` is `(1 + r % w, 1 + r % h)`, so no draw
ever proposes a `bottom_right` with a zero coordinate — its support is
`[1,W] × [1,H]`, not the claimed `[0,W] × [0,H]` (here at `W = H = 5`). -/
theorem C8_counterexample_no_zero_corner :
    ¬ ∃ r1 r2 r3 r4 : ℕ, (neighborRectCorners 5 5 r1 r2 r3 r4).2.1 = 0 := by
  rintro ⟨r1, r2, r3, r4, h⟩
  simp [neighborRectCorners] at h

/-- C8 amended: `bottom_right` ranges over `[1,W] × [1,H]` (every such pair is
proposable, zero coordinates never), `top_left` is then drawn in
`[0, bottom_right.x) × [0, bottom_right.y)`, and since both `bottom_right`
components are at least `1` no modulo-by-zero occurs when reducing the
`top_left` draws. -/
theorem C8_rectangle_draw_ranges (w h r1 r2 r3 r4 : ℕ) (hw : 0 < w) (hh : 0 < h) :
    (1 ≤ (neighborRectCorners w h r1 r2 r3 r4).2.1 ∧
        (neighborRectCorners w h r1 r2 r3 r4).2.1 ≤ w ∧
        1 ≤ (neighborRectCorners w h r1 r2 r3 r4).2.2 ∧
        (neighborRectCorners w h r1 r2 r3 r4).2.2 ≤ h) ∧
    ((neighborRectCorners w h r1 r2 r3 r4).1.1 < (neighborRectCorners w h r1 r2 r3 r4).2.1 ∧
        (neighborRectCorners w h r1 r2 r3 r4).1.2 < (neighborRectCorners w h r1 r2 r3 r4).2.2) ∧
    (∀ p q : ℕ, 1 ≤ p → p ≤ w → 1 ≤ q → q ≤ h →
        ∃ s1 s2 : ℕ, (neighborRectCorners w h s1 s2 r3 r4).2 = (p, q)) := by
  refine ⟨?_, ?_, ?_⟩
  · have h1 := Nat.mod_lt r1 hw
    have h2 := Nat.mod_lt r2 hh
    simp only [neighborRectCorners]
    omega
  · have h3 := Nat.mod_lt r3 (show 0 < 1 + r1 % w by omega)
    have h4 := Nat.mod_lt r4 (show 0 < 1 + r2 % h by omega)
    simp only [neighborRectCorners]
    omega
  · intro p q hp hpw hq hqh
    refine ⟨p - 1, q - 1, ?_⟩
    simp only [neighborRectCorners, Prod.mk.injEq]
    rw [Nat.mod_eq_of_lt (by omega), Nat.mod_eq_of_lt (by omega)]
    omega

/-- Witness for C8 at a concrete canvas and concrete raw draws. -/
theorem C8_witness :
    (0 : ℕ) < 3 ∧ (0 : ℕ) < 4 ∧
      ((1 ≤ (neighborRectCorners 3 4 7 9 2 5).2.1 ∧ (neighborRectCorners 3 4 7 9 2 5).2.1 ≤ 3 ∧
          1 ≤ (neighborRectCorners 3 4 7 9 2 5).2.2 ∧ (neighborRectCorners 3 4 7 9 2 5).2.2 ≤ 4) ∧
        ((neighborRectCorners 3 4 7 9 2 5).1.1 < (neighborRectCorners 3 4 7 9 2 5).2.1 ∧
          (neighborRectCorners 3 4 7 9 2 5).1.2 < (neighborRectCorners 3 4 7 9 2 5).2.2) ∧
        (∀ p q : ℕ, 1 ≤ p → p ≤ 3 → 1 ≤ q → q ≤ 4 →
          ∃ s1 s2 : ℕ, (neighborRectCorners 3 4 s1 s2 2 5).2 = (p, q))) :=
  ⟨by decide, by decide, C8_rectangle_draw_ranges 3 4 7 9 2 5 (by decide) (by decide)⟩

/-! ### C9: triangle-mode resampling -/

lemma getNeighborTriangleAux_reaches (w h : ℕ) (stream : ℕ → Coord × Coord × Coord) :
    ∀ (k idx : ℕ),
      (∀ j < k, degenerate_triple (tripleAt w h stream (idx + j)).1
        (tripleAt w h stream (idx + j)).2.1 (tripleAt w h stream (idx + j)).2.2 = true) →
      degenerate_triple (tripleAt w h stream (idx + k)).1
        (tripleAt w h stream (idx + k)).2.1 (tripleAt w h stream (idx + k)).2.2 = false →
      getNeighborTriangleAux w h stream idx (k + 1) =
        some (get_triangle (tripleAt w h stream (idx + k)).1
          (tripleAt w h stream (idx + k)).2.1 (tripleAt w h stream (idx + k)).2.2) := by
  intro k
  induction k with
  | zero =>
      intro idx _ hfalse
      rw [getNeighborTriangleAux]
      simp only [Nat.add_zero] at hfalse
      rw [if_neg (by simp [hfalse])]
      simp
  | succ k ih =>
      intro idx hall hfalse
      rw [getNeighborTriangleAux]
      rw [if_pos (by simpa using hall 0 (Nat.succ_pos k))]
      have h1 : ∀ j < k, degenerate_triple (tripleAt w h stream (idx + 1 + j)).1
          (tripleAt w h stream (idx + 1 + j)).2.1
          (tripleAt w h stream (idx + 1 + j)).2.2 = true := by
        intro j hj
        have := hall (j + 1) (by omega)
        rwa [show idx + (j + 1) = idx + 1 + j by omega] at this
      have h2 := hfalse
      rw [show idx + (k + 1) = idx + 1 + k by omega] at h2
      rw [ih (idx + 1) h1 h2, show idx + 1 + k = idx + (k + 1) by omega]

/-- C9 amended: whenever some resampling attempt draws a non-degenerate triple
(an almost-sure event for `W, H ≥ 2`, for which non-degenerate in-bounds
triples exist), the triangle-mode recursion of `get_neighbor` terminates at
the first such attempt — degenerate draws are recovered by immediate
resampling, invisible to the controller — and returns the rasterization of a
triple passing the degeneracy check; the original claim's "always terminates
for every `W, H > 0`" fails for `W = 1` or `H = 1`. -/
theorem C9_triangle_resampling (w h : ℕ) (stream : ℕ → Coord × Coord × Coord)
    (hex : triangleDrawTerminates w h stream) :
    (∃ fuel r, getNeighborTriangleAux w h stream 0 fuel = some r ∧
        r = get_triangle (tripleAt w h stream (Nat.find hex)).1
          (tripleAt w h stream (Nat.find hex)).2.1 (tripleAt w h stream (Nat.find hex)).2.2 ∧
        degenerate_triple (tripleAt w h stream (Nat.find hex)).1
          (tripleAt w h stream (Nat.find hex)).2.1
          (tripleAt w h stream (Nat.find hex)).2.2 = false) ∧
    (2 ≤ w → 2 ≤ h → ∃ v1 v2 v3 : Coord, v1.1 < w ∧ v1.2 < h ∧ v2.1 < w ∧ v2.2 < h ∧
        v3.1 < w ∧ v3.2 < h ∧ degenerate_triple v1 v2 v3 = false) := by
  constructor
  · refine ⟨Nat.find hex + 1,
      get_triangle (tripleAt w h stream (Nat.find hex)).1
        (tripleAt w h stream (Nat.find hex)).2.1 (tripleAt w h stream (Nat.find hex)).2.2,
      ?_, rfl, Nat.find_spec hex⟩
    have hall : ∀ j < Nat.find hex, degenerate_triple (tripleAt w h stream (0 + j)).1
        (tripleAt w h stream (0 + j)).2.1 (tripleAt w h stream (0 + j)).2.2 = true := by
      intro j hj
      simpa using Nat.find_min hex hj
    have hfalse := Nat.find_spec hex
    rw [show Nat.find hex = 0 + Nat.find hex by omega] at hfalse
    have hrun := getNeighborTriangleAux_reaches w h stream (Nat.find hex) 0 hall hfalse
    simpa using hrun
  · intro hw hh
    exact ⟨(0, 0), (0, 1), (1, 0), by omega, by omega, by omega, by omega, by omega, by omega,
      by decide⟩

/-- C9 counterexample: on a 1×1 canvas every triangle-mode draw reduces to
three copies of `(0, 0)`, which the validity check rejects, so the resampling
recursion never terminates — refuting "always terminates for every canvas
with `W, H > 0`". -/
theorem C9_counterexample_unit_canvas :
    ¬ triangleDrawTerminates 1 1 fun _ => ((0, 0), (0, 0), (0, 0)) := by
  rintro ⟨n, hn⟩
  simp [tripleAt, degenerate_triple] at hn

/-- Witness for C9 on a 2×2 canvas whose first draw is already valid. -/
theorem C9_witness :
    triangleDrawTerminates 2 2 (fun _ => ((0, 0), (0, 1), (1, 0))) ∧
      ∃ fuel r, getNeighborTriangleAux 2 2 (fun _ => ((0, 0), (0, 1), (1, 0))) 0 fuel =
        some r := by
  have hex : triangleDrawTerminates 2 2 fun _ => ((0, 0), (0, 1), (1, 0)) := ⟨0, by decide⟩
  refine ⟨hex, ?_⟩
  obtain ⟨fuel, r, h1, -, -⟩ :=
    (C9_triangle_resampling 2 2 (fun _ => ((0, 0), (0, 1), (1, 0))) hex).1
  exact ⟨fuel, r, h1⟩

/-! ### C6: all rasterized coordinates stay on the canvas -/

lemma f64toUsize_le {q : ℚ} {M : ℕ} (h : q ≤ (M : ℚ)) : f64toUsize q ≤ M := by
  unfold f64toUsize
  have h1 : Int.floor q ≤ (M : ℤ) := by
    have := Int.floor_le_floor h
    rwa [Int.floor_natCast] at this
  exact Int.toNat_le.mpr h1

lemma interp_le {a b M dy j : ℚ} (hdy : 0 < dy) (hj0 : 0 ≤ j) (hjd : j ≤ dy)
    (ha : a ≤ M) (hb : b ≤ M) : a + j * ((b - a) / dy) ≤ M := by
  rw [← sub_nonneg, show M - (a + j * ((b - a) / dy)) =
    ((dy - j) * (M - a) + j * (M - b)) / dy by field_simp; ring]
  have h1 := mul_nonneg (sub_nonneg.mpr hjd) (sub_nonneg.mpr ha)
  have h2 := mul_nonneg hj0 (sub_nonneg.mpr hb)
  exact div_nonneg (by nlinarith [h1, h2]) hdy.le

lemma interp_nonneg {a b dy j : ℚ} (hdy : 0 < dy) (hj0 : 0 ≤ j) (hjd : j ≤ dy)
    (ha : 0 ≤ a) (hb : 0 ≤ b) : 0 ≤ a + j * ((b - a) / dy) := by
  rw [show a + j * ((b - a) / dy) = ((dy - j) * a + j * b) / dy by field_simp; ring]
  have h1 := mul_nonneg (sub_nonneg.mpr hjd) ha
  have h2 := mul_nonneg hj0 hb
  exact div_nonneg (by nlinarith [h1, h2]) hdy.le

lemma mem_spanRow {curx1 curx2 : ℚ} {y : ℤ} {p : Coord} (hp : p ∈ spanRow curx1 curx2 y) :
    p.1 ≤ f64toUsize curx2 ∧ p.2 = y.toNat := by
  unfold spanRow at hp
  simp only [List.mem_map, List.mem_range'_1] at hp
  obtain ⟨x, ⟨hx1, hx2⟩, rfl⟩ := hp
  exact ⟨by omega, rfl⟩

lemma scanRowsUp_bounds {M Hm : ℕ} (is1 is2 : ℚ) :
    ∀ (rows : ℕ) (c1 c2 : ℚ) (y : ℤ),
      (∀ j < rows, c2 + (j : ℚ) * is2 ≤ (M : ℚ)) →
      ((y + rows : ℤ) ≤ (Hm : ℤ) + 1) →
      ∀ p ∈ scanRowsUp is1 is2 rows c1 c2 y, p.1 ≤ M ∧ p.2 ≤ Hm := by
  intro rows
  induction rows with
  | zero => intro c1 c2 y _ _ p hp; simp [scanRowsUp] at hp
  | succ rows ih =>
      intro c1 c2 y hx hyr p hp
      rw [scanRowsUp] at hp
      rcases List.mem_append.mp hp with hp | hp
      · obtain ⟨h1, h2⟩ := mem_spanRow hp
        have hc2 : c2 ≤ (M : ℚ) := by simpa using hx 0 (Nat.succ_pos rows)
        exact ⟨le_trans h1 (f64toUsize_le hc2), by omega⟩
      · refine ih (c1 + is1) (c2 + is2) (y + 1) ?_ (by push_cast at hyr ⊢; omega) p hp
        intro j hj
        have hj1 := hx (j + 1) (by omega)
        calc c2 + is2 + (j : ℚ) * is2 = c2 + ((j : ℕ) + 1 : ℚ) * is2 := by ring
          _ ≤ (M : ℚ) := by push_cast at hj1 ⊢; linarith

lemma scanRowsDown_bounds {M Hm : ℕ} (is1 is2 : ℚ) :
    ∀ (rows : ℕ) (c1 c2 : ℚ) (y : ℤ),
      (∀ j < rows, c2 - (j : ℚ) * is2 ≤ (M : ℚ)) →
      (y ≤ (Hm : ℤ)) →
      ∀ p ∈ scanRowsDown is1 is2 rows c1 c2 y, p.1 ≤ M ∧ p.2 ≤ Hm := by
  intro rows
  induction rows with
  | zero => intro c1 c2 y _ _ p hp; simp [scanRowsDown] at hp
  | succ rows ih =>
      intro c1 c2 y hx hyr p hp
      rw [scanRowsDown] at hp
      rcases List.mem_append.mp hp with hp | hp
      · obtain ⟨h1, h2⟩ := mem_spanRow hp
        have hc2 : c2 ≤ (M : ℚ) := by simpa using hx 0 (Nat.succ_pos rows)
        exact ⟨le_trans h1 (f64toUsize_le hc2), by omega⟩
      · refine ih (c1 - is1) (c2 - is2) (y - 1) ?_ (by omega) p hp
        intro j hj
        have hj1 := hx (j + 1) (by omega)
        calc c2 - is2 - (j : ℚ) * is2 = c2 - ((j : ℕ) + 1 : ℚ) * is2 := by ring
          _ ≤ (M : ℚ) := by push_cast at hj1 ⊢; linarith

lemma flat_bottom_bounds {M Hm : ℕ} (v1 v2 v3 : ℤ × ℤ)
    (hy12 : v1.2 < v2.2) (hy23 : v2.2 = v3.2)
    (hx1M : v1.1 ≤ (M : ℤ)) (hx3M : v3.1 ≤ (M : ℤ)) (hy2Hm : v2.2 ≤ (Hm : ℤ)) :
    ∀ p ∈ flat_bottom_triangle v1 v2 v3, p.1 ≤ M ∧ p.2 ≤ Hm := by
  unfold flat_bottom_triangle
  refine scanRowsUp_bounds _ _ _ _ _ _ ?_ ?_
  · intro j hj
    have hdy : (0 : ℚ) < ((v3.2 - v1.2 : ℤ) : ℚ) := by
      rw [show v3.2 = v2.2 from hy23.symm]
      exact_mod_cast sub_pos.mpr hy12
    have hjd : ((j : ℕ) : ℚ) ≤ ((v3.2 - v1.2 : ℤ) : ℚ) := by
      have : (j : ℤ) ≤ v3.2 - v1.2 := by omega
      exact_mod_cast this
    have h1 : ((v1.1 : ℤ) : ℚ) ≤ (M : ℚ) := by exact_mod_cast hx1M
    have h3 : ((v3.1 : ℤ) : ℚ) ≤ (M : ℚ) := by exact_mod_cast hx3M
    have := interp_le hdy (by positivity) hjd h1 h3
    calc (v1.1 : ℚ) + (j : ℚ) * (((v3.1 - v1.1 : ℤ) : ℚ) / ((v3.2 - v1.2 : ℤ) : ℚ))
        = (v1.1 : ℚ) + (j : ℚ) *
          ((((v3.1 : ℤ) : ℚ) - ((v1.1 : ℤ) : ℚ)) / ((v3.2 - v1.2 : ℤ) : ℚ)) := by
          push_cast; ring
      _ ≤ (M : ℚ) := this
  · omega

lemma flat_top_bounds {M Hm : ℕ} (v1 v2 v3 : ℤ × ℤ)
    (hy12 : v1.2 = v2.2) (hy23 : v2.2 < v3.2)
    (hx2M : v2.1 ≤ (M : ℤ)) (hx3M : v3.1 ≤ (M : ℤ)) (hy3Hm : v3.2 ≤ (Hm : ℤ)) :
    ∀ p ∈ flat_top_triangle v1 v2 v3, p.1 ≤ M ∧ p.2 ≤ Hm := by
  unfold flat_top_triangle
  refine scanRowsDown_bounds _ _ _ _ _ _ ?_ hy3Hm
  intro j hj
  have hdy : (0 : ℚ) < ((v3.2 - v2.2 : ℤ) : ℚ) := by exact_mod_cast sub_pos.mpr hy23
  have hjd : ((j : ℕ) : ℚ) ≤ ((v3.2 - v2.2 : ℤ) : ℚ) := by
    have : (j : ℤ) ≤ v3.2 - v2.2 := by omega
    exact_mod_cast this
  have h2 : ((v2.1 : ℤ) : ℚ) ≤ (M : ℚ) := by exact_mod_cast hx2M
  have h3 : ((v3.1 : ℤ) : ℚ) ≤ (M : ℚ) := by exact_mod_cast hx3M
  have := interp_le hdy (by positivity) hjd h3 h2
  calc (v3.1 : ℚ) - (j : ℚ) * (((v3.1 - v2.1 : ℤ) : ℚ) / ((v3.2 - v2.2 : ℤ) : ℚ))
      = (v3.1 : ℚ) + (j : ℚ) *
        ((((v2.1 : ℤ) : ℚ) - ((v3.1 : ℤ) : ℚ)) / ((v3.2 - v2.2 : ℤ) : ℚ)) := by
        push_cast; ring
    _ ≤ (M : ℚ) := this

lemma x4I_bounds {M : ℕ} {vt1 vt2 vt3 : ℤ × ℤ} (h12 : vt1.2 < vt2.2) (h23 : vt2.2 < vt3.2)
    (h1 : 0 ≤ vt1.1) (h1M : vt1.1 ≤ (M : ℤ)) (h3 : 0 ≤ vt3.1) (h3M : vt3.1 ≤ (M : ℤ)) :
    0 ≤ x4I vt1 vt2 vt3 ∧ x4I vt1 vt2 vt3 ≤ (M : ℤ) := by
  have hdy : (0 : ℚ) < ((vt3.2 - vt1.2 : ℤ) : ℚ) := by
    exact_mod_cast sub_pos.mpr (lt_trans h12 h23)
  have hj0 : (0 : ℚ) ≤ ((vt2.2 - vt1.2 : ℤ) : ℚ) := by
    exact_mod_cast sub_nonneg.mpr h12.le
  have hjd : ((vt2.2 - vt1.2 : ℤ) : ℚ) ≤ ((vt3.2 - vt1.2 : ℤ) : ℚ) := by
    exact_mod_cast sub_le_sub_right h23.le _
  have hq : (vt1.1 : ℚ) + ((vt2.2 - vt1.2 : ℤ) : ℚ) / ((vt3.2 - vt1.2 : ℤ) : ℚ) *
      ((vt3.1 - vt1.1 : ℤ) : ℚ) =
      (vt1.1 : ℚ) + ((vt2.2 - vt1.2 : ℤ) : ℚ) *
        ((((vt3.1 : ℤ) : ℚ) - ((vt1.1 : ℤ) : ℚ)) / ((vt3.2 - vt1.2 : ℤ) : ℚ)) := by
    push_cast; ring
  have h1Q : (0 : ℚ) ≤ (vt1.1 : ℚ) := by exact_mod_cast h1
  have h3Q : (0 : ℚ) ≤ (vt3.1 : ℚ) := by exact_mod_cast h3
  have h1MQ : ((vt1.1 : ℤ) : ℚ) ≤ (M : ℚ) := by exact_mod_cast h1M
  have h3MQ : ((vt3.1 : ℤ) : ℚ) ≤ (M : ℚ) := by exact_mod_cast h3M
  have hnn : (0 : ℚ) ≤ (vt1.1 : ℚ) + ((vt2.2 - vt1.2 : ℤ) : ℚ) /
      ((vt3.2 - vt1.2 : ℤ) : ℚ) * ((vt3.1 - vt1.1 : ℤ) : ℚ) := by
    rw [hq]
    exact interp_nonneg hdy hj0 hjd h1Q h3Q
  have hub : (vt1.1 : ℚ) + ((vt2.2 - vt1.2 : ℤ) : ℚ) / ((vt3.2 - vt1.2 : ℤ) : ℚ) *
      ((vt3.1 - vt1.1 : ℤ) : ℚ) ≤ (M : ℚ) := by
    rw [hq]
    exact interp_le hdy hj0 hjd h1MQ h3MQ
  unfold x4I f64toI64
  rw [if_neg (not_lt.mpr hnn)]
  constructor
  · exact Int.floor_nonneg.mpr hnn
  · have := Int.floor_le_floor hub
    rwa [Int.floor_natCast] at this

lemma sort_vertices_spec (a b c : ℤ × ℤ) :
    ((sort_vertices (a, b, c)).1 = a ∨ (sort_vertices (a, b, c)).1 = b ∨
      (sort_vertices (a, b, c)).1 = c) ∧
    ((sort_vertices (a, b, c)).2.1 = a ∨ (sort_vertices (a, b, c)).2.1 = b ∨
      (sort_vertices (a, b, c)).2.1 = c) ∧
    ((sort_vertices (a, b, c)).2.2 = a ∨ (sort_vertices (a, b, c)).2.2 = b ∨
      (sort_vertices (a, b, c)).2.2 = c) ∧
    (sort_vertices (a, b, c)).1.2 ≤ (sort_vertices (a, b, c)).2.1.2 ∧
    (sort_vertices (a, b, c)).2.1.2 ≤ (sort_vertices (a, b, c)).2.2.2 ∧
    ((sort_vertices (a, b, c)).1.2 = (sort_vertices (a, b, c)).2.1.2 →
      (sort_vertices (a, b, c)).2.1.2 = (sort_vertices (a, b, c)).2.2.2 →
      a.2 = b.2 ∧ b.2 = c.2) := by
  obtain ⟨a1, a2⟩ := a
  obtain ⟨b1, b2⟩ := b
  obtain ⟨c1, c2⟩ := c
  unfold sort_vertices swap12 swap23
  split_ifs <;> refine ⟨?_, ?_, ?_, ?_, ?_, ?_⟩ <;> simp_all <;> omega

lemma sort_vertices_of_flatB (v1 v2 v4 : ℤ × ℤ) (h12 : v1.2 < v2.2) (h24 : v2.2 = v4.2) :
    sort_vertices (v1, v2, v4) = (v1, v2, v4) ∨ sort_vertices (v1, v2, v4) = (v1, v4, v2) := by
  obtain ⟨x1, y1⟩ := v1
  obtain ⟨x2, y2⟩ := v2
  obtain ⟨x4, y4⟩ := v4
  simp only at h12 h24
  unfold sort_vertices swap12 swap23
  split_ifs <;> simp_all <;> omega

lemma sort_vertices_of_flatT (v2 v4 v3 : ℤ × ℤ) (h24 : v2.2 = v4.2) (h43 : v4.2 < v3.2) :
    sort_vertices (v2, v4, v3) = (v2, v4, v3) ∨ sort_vertices (v2, v4, v3) = (v4, v2, v3) := by
  obtain ⟨x2, y2⟩ := v2
  obtain ⟨x4, y4⟩ := v4
  obtain ⟨x3, y3⟩ := v3
  simp only at h24 h43
  unfold sort_vertices swap12 swap23
  split_ifs <;> simp_all <;> omega

lemma triangleFromSorted_bounds (M Hm : ℕ) (vs : (ℤ × ℤ) × (ℤ × ℤ) × (ℤ × ℤ))
    (hs12 : vs.1.2 ≤ vs.2.1.2) (hs23 : vs.2.1.2 ≤ vs.2.2.2)
    (hnotall : ¬(vs.1.2 = vs.2.1.2 ∧ vs.2.1.2 = vs.2.2.2))
    (h1x : 0 ≤ vs.1.1) (h1xM : vs.1.1 ≤ (M : ℤ)) (h2xM : vs.2.1.1 ≤ (M : ℤ))
    (h3x : 0 ≤ vs.2.2.1) (h3xM : vs.2.2.1 ≤ (M : ℤ))
    (h2yH : vs.2.1.2 ≤ (Hm : ℤ)) (h3yH : vs.2.2.2 ≤ (Hm : ℤ)) :
    ∀ p ∈ triangleFromSorted vs, p.1 ≤ M ∧ p.2 ≤ Hm := by
  obtain ⟨vt1, vt2, vt3⟩ := vs
  dsimp only at hs12 hs23 hnotall h1x h1xM h2xM h3x h3xM h2yH h3yH
  unfold triangleFromSorted
  split_ifs with hfb hft
  · have h12 : vt1.2 < vt2.2 := lt_of_le_of_ne hs12 fun he => hnotall ⟨he, hfb⟩
    exact flat_bottom_bounds vt1 vt2 vt3 h12 hfb h1xM h3xM h2yH
  · have h23 : vt2.2 < vt3.2 := lt_of_le_of_ne hs23 hfb
    exact flat_top_bounds vt1 vt2 vt3 hft h23 h2xM h3xM h3yH
  · have h12 : vt1.2 < vt2.2 := lt_of_le_of_ne hs12 hft
    have h23 : vt2.2 < vt3.2 := lt_of_le_of_ne hs23 hfb
    obtain ⟨hx40, hx4M⟩ := x4I_bounds h12 h23 h1x h1xM h3x h3xM
    intro p hp
    rcases List.mem_append.mp hp with hp | hp
    · unfold splitFB at hp
      rcases sort_vertices_of_flatB vt1 vt2 (x4I vt1 vt2 vt3, vt2.2) h12 rfl with he | he <;>
        rw [he] at hp
      · exact flat_bottom_bounds vt1 vt2 (x4I vt1 vt2 vt3, vt2.2)
          h12 rfl h1xM hx4M h2yH p hp
      · exact flat_bottom_bounds vt1 (x4I vt1 vt2 vt3, vt2.2) vt2
          h12 rfl h1xM h2xM h2yH p hp
    · unfold splitFT at hp
      rcases sort_vertices_of_flatT vt2 (x4I vt1 vt2 vt3, vt2.2) vt3 rfl h23 with he | he <;>
        rw [he] at hp
      · exact flat_top_bounds vt2 (x4I vt1 vt2 vt3, vt2.2) vt3
          rfl h23 hx4M h3xM h3yH p hp
      · exact flat_top_bounds (x4I vt1 vt2 vt3, vt2.2) vt2 vt3
          rfl h23 h2xM h3xM h3yH p hp
lemma degenerate_of_shared_y {v1 v2 v3 : Coord} (h12 : v1.2 = v2.2) (h23 : v2.2 = v3.2) :
    degenerate_triple v1 v2 v3 = true := by
  simp [degenerate_triple, h12, h23]

/-- C6: every coordinate in a `get_neighbor` candidate on a `W × H` canvas
with `W, H > 0` — in rectangle mode and in triangle mode, including the
coordinates produced by the inverse-slope scanline stepping of
`get_triangle` — satisfies `x < W` and `y < H`, so the buffer indexing done
by `update_cost` and the accept-commit loop of `anneal` stays in bounds. -/
theorem C6_candidate_coordinates_in_bounds (w h : ℕ) (hw : 0 < w) (hh : 0 < h) :
    (∀ r1 r2 r3 r4 : ℕ, ∀ p ∈ getNeighborRect w h r1 r2 r3 r4, p.1 < w ∧ p.2 < h) ∧
    (∀ v1 v2 v3 : Coord, v1.1 < w → v1.2 < h → v2.1 < w → v2.2 < h → v3.1 < w → v3.2 < h →
      degenerate_triple v1 v2 v3 = false →
      ∀ p ∈ get_triangle v1 v2 v3, p.1 < w ∧ p.2 < h) := by
  constructor
  · intro r1 r2 r3 r4 p hp
    unfold getNeighborRect at hp
    obtain ⟨-, h2, -, h4⟩ := mem_get_rectangle.mp hp
    have hbr1 : (neighborRectCorners w h r1 r2 r3 r4).2.1 = 1 + r1 % w := rfl
    have hbr2 : (neighborRectCorners w h r1 r2 r3 r4).2.2 = 1 + r2 % h := rfl
    rw [hbr1] at h2
    rw [hbr2] at h4
    have m1 : r1 % w < w := Nat.mod_lt _ hw
    have m2 : r2 % h < h := Nat.mod_lt _ hh
    omega
  · intro v1 v2 v3 h1w h1h h2w h2h h3w h3h hdeg p hp
    unfold get_triangle at hp
    obtain ⟨m1, m2, m3, s12, s23, hall⟩ :=
      sort_vertices_spec ((v1.1 : ℤ), (v1.2 : ℤ)) ((v2.1 : ℤ), (v2.2 : ℤ))
        ((v3.1 : ℤ), (v3.2 : ℤ))
    have hbound : ∀ u : ℤ × ℤ,
        (u = ((v1.1 : ℤ), (v1.2 : ℤ)) ∨ u = ((v2.1 : ℤ), (v2.2 : ℤ)) ∨
          u = ((v3.1 : ℤ), (v3.2 : ℤ))) →
        0 ≤ u.1 ∧ u.1 ≤ ((w - 1 : ℕ) : ℤ) ∧ 0 ≤ u.2 ∧ u.2 ≤ ((h - 1 : ℕ) : ℤ) := by
      rintro u (rfl | rfl | rfl) <;> refine ⟨?_, ?_, ?_, ?_⟩ <;> dsimp only <;> omega
    obtain ⟨b1a, b1b, b1c, b1d⟩ := hbound _ m1
    obtain ⟨b2a, b2b, b2c, b2d⟩ := hbound _ m2
    obtain ⟨b3a, b3b, b3c, b3d⟩ := hbound _ m3
    have hnotall : ¬((sort_vertices (((v1.1 : ℤ), (v1.2 : ℤ)), ((v2.1 : ℤ), (v2.2 : ℤ)),
        ((v3.1 : ℤ), (v3.2 : ℤ)))).1.2 =
          (sort_vertices (((v1.1 : ℤ), (v1.2 : ℤ)), ((v2.1 : ℤ), (v2.2 : ℤ)),
            ((v3.1 : ℤ), (v3.2 : ℤ)))).2.1.2 ∧
        (sort_vertices (((v1.1 : ℤ), (v1.2 : ℤ)), ((v2.1 : ℤ), (v2.2 : ℤ)),
            ((v3.1 : ℤ), (v3.2 : ℤ)))).2.1.2 =
          (sort_vertices (((v1.1 : ℤ), (v1.2 : ℤ)), ((v2.1 : ℤ), (v2.2 : ℤ)),
            ((v3.1 : ℤ), (v3.2 : ℤ)))).2.2.2) := by
      rintro ⟨he1, he2⟩
      obtain ⟨f1, f2⟩ := hall he1 he2
      have f1' : (v1.2 : ℤ) = (v2.2 : ℤ) := f1
      have f2' : (v2.2 : ℤ) = (v3.2 : ℤ) := f2
      have g1 : v1.2 = v2.2 := by exact_mod_cast f1'
      have g2 : v2.2 = v3.2 := by exact_mod_cast f2'
      rw [degenerate_of_shared_y g1 g2] at hdeg
      exact Bool.noConfusion hdeg
    have hres := triangleFromSorted_bounds (w - 1) (h - 1) _ s12 s23
      hnotall b1a b1b b2b b3a b3b b2d b3d p hp
    omega

/-- Witness for C6 on a concrete 4×4 canvas, one rectangle draw and one
non-degenerate triangle that hits the split case. -/
theorem C6_witness :
    ((0 : ℕ) < 4 ∧ (0 : ℕ) < 4) ∧
      (∀ p ∈ getNeighborRect 4 4 5 6 7 8, p.1 < 4 ∧ p.2 < 4) ∧
      degenerate_triple (0, 0) (3, 1) (1, 3) = false ∧
      ∀ p ∈ get_triangle (0, 0) (3, 1) (1, 3), p.1 < 4 ∧ p.2 < 4 :=
  ⟨⟨by decide, by decide⟩,
    (C6_candidate_coordinates_in_bounds 4 4 (by decide) (by decide)).1 5 6 7 8,
    by decide,
    (C6_candidate_coordinates_in_bounds 4 4 (by decide) (by decide)).2 (0, 0) (3, 1) (1, 3)
      (by decide) (by decide) (by decide) (by decide) (by decide) (by decide) (by decide)⟩

end AnnealImage
